import Mathlib

/-!
Verification of the asset reconciliation sensor core.

Shallow embedding of `asset_reconciliation_sensor.py` and `freshness_policy.py`:
the caching instance queryer, the reconciliation algorithm, the upstream-map
construction and the freshness policy, together with proofs of the claims the
spec makes about them.

The fact store (`DagsterInstance` event log) is an external collaborator here
(spec section 6: only its query contract matters); it is embedded as append-only
event lists whose storage ids strictly increase in append order.
-/

/-- An asset key: an ordered sequence of path segments (spec section 3). -/
abbrev AssetKey := List String

/-- A materialization event record in the fact store: the completed (or, in the
planned log, intended) production of an asset, tagged with the storage id the
store assigned at append time and the id of the run that produced it. -/
structure MatRecord where
  assetKey : AssetKey
  storageId : Nat
  runId : String
  deriving DecidableEq, Repr

/-- The append-only fact store as seen through the external fact-store contract
(spec section 6): the materialization event log, the planned-materialization
event log, and the set of runs currently in progress. -/
structure FactStore where
  mats : List MatRecord
  planned : List MatRecord
  inProgressRuns : List String
  deriving DecidableEq, Repr

/-- Store well-formedness: storage ids of materialization events are positive
and strictly increase in append order (spec invariant I1; the SQL-backed store
assigns row ids starting from 1). -/
def FactStore.WF (s : FactStore) : Prop :=
  s.mats.Pairwise (fun r1 r2 => r1.storageId < r2.storageId) ∧
    ∀ r ∈ s.mats, 0 < r.storageId

/-- Whether a materialization record matches an `EventRecordsFilter` for the
given asset key and `after_cursor` bound: storage id strictly greater than the
cursor, with no lower bound when the cursor is absent. -/
def matchesMatQuery (a : AssetKey) (after : Option Nat) (r : MatRecord) : Bool :=
  r.assetKey == a && after.all fun c => decide (c < r.storageId)

/-- The last element of `l` satisfying `p`, if any.  The store returns events
ordered so that "latest" means highest storage id; since storage ids increase
in append order, the latest matching event is the last matching entry of the
log. -/
def lastMatching {α : Type} (p : α → Bool) : List α → Option α
  | [] => none
  | x :: rest =>
    match lastMatching p rest with
    | some y => some y
    | none => if p x then some x else none

/-- Direct (uncached) store query behind
`instance.get_event_records(EventRecordsFilter(ASSET_MATERIALIZATION,
asset_key, after_cursor), ascending=False, limit=1)`: the materialization
record for the asset with the highest storage id strictly greater than `after`
(no lower bound when `after` is absent), or `none` if there is no such
record. -/
def FactStore.latestMaterializationRecord (s : FactStore) (a : AssetKey)
    (after : Option Nat) : Option MatRecord :=
  lastMatching (matchesMatQuery a after) s.mats

/-- Direct store query behind
`get_event_records(EventRecordsFilter(ASSET_MATERIALIZATION_PLANNED,
asset_key), ascending=False, limit=1)`: the latest planned-materialization
record for the asset. -/
def FactStore.latestPlannedMaterializationRecord (s : FactStore) (a : AssetKey) :
    Option MatRecord :=
  lastMatching (fun r => r.assetKey == a) s.planned

/-- The planned-materialization asset set of a run
(`get_records_for_run(run_id, ASSET_MATERIALIZATION_PLANNED)`). -/
def FactStore.plannedMaterializationsForRun (s : FactStore) (runId : String) :
    List AssetKey :=
  (s.planned.filter fun r => r.runId == runId).map MatRecord.assetKey

/-- `CachingInstanceQueryer.run_planned_to_materialize_asset`: whether the given
run planned to materialize the given asset.  The source memoizes the per-run
planned-asset set; since that query does not depend on any cursor, the cached
set always equals a fresh query's result, so it is embedded as the pure
query. -/
def FactStore.runPlannedToMaterializeAsset (s : FactStore) (a : AssetKey)
    (runId : String) : Bool :=
  (s.plannedMaterializationsForRun runId).contains a

/-- `CachingInstanceQueryer.is_run_in_progress`: whether the run is currently
in progress (memoized per run in the source; the memoized boolean always equals
the fresh query's result, so it is embedded as the pure query). -/
def FactStore.isRunInProgress (s : FactStore) (runId : String) : Bool :=
  s.inProgressRuns.contains runId

/-- The per-tick cache state of `CachingInstanceQueryer` relevant to
`get_latest_materialization_record`: the positive cache of latest observed
materialization records, and the negative floor cache recording cursors at or
above which no record was found. -/
structure CachingInstanceQueryer where
  latestMaterializationRecordCache : AssetKey → Option MatRecord
  noMaterializationsAfterCursorCache : AssetKey → Option Nat

/-- The cache state at the start of a tick (`CachingInstanceQueryer.__init__`). -/
def CachingInstanceQueryer.init : CachingInstanceQueryer :=
  ⟨fun _ => none, fun _ => none⟩

/-- Pointwise update of a cache map at one key. -/
def updateFun {β : Type} (f : AssetKey → β) (a : AssetKey) (v : β) :
    AssetKey → β :=
  fun k => if k = a then v else f k

/-- The fall-through path of
`CachingInstanceQueryer.get_latest_materialization_record` once both caches
failed to answer: query the store; on a hit, record the result in the positive
cache; on a miss with a cursor, lower the negative floor to the minimum of the
stored floor and the cursor (the cursor itself when no floor is stored). -/
def queryAndCache (q : CachingInstanceQueryer) (s : FactStore) (a : AssetKey)
    (after : Option Nat) : Option MatRecord × CachingInstanceQueryer :=
  match s.latestMaterializationRecord a after with
  | some r =>
    (some r,
      ⟨updateFun q.latestMaterializationRecordCache a (some r),
        q.noMaterializationsAfterCursorCache⟩)
  | none =>
    match after with
    | some c =>
      (none,
        ⟨q.latestMaterializationRecordCache,
          updateFun q.noMaterializationsAfterCursorCache a
            (some (min c ((q.noMaterializationsAfterCursorCache a).getD c)))⟩)
    | none => (none, q)

/-- `CachingInstanceQueryer.get_latest_materialization_record`: consult the
positive cache, then the negative floor cache, then fall through to the store
via `queryAndCache`; returns the answer together with the updated cache
state. -/
def CachingInstanceQueryer.getLatestMaterializationRecord
    (q : CachingInstanceQueryer) (s : FactStore) (a : AssetKey)
    (after : Option Nat) : Option MatRecord × CachingInstanceQueryer :=
  match q.latestMaterializationRecordCache a with
  | some cached =>
    if after.all fun c => decide (c < cached.storageId) then (some cached, q)
    else (none, q)
  | none =>
    match after, q.noMaterializationsAfterCursorCache a with
    | some c, some floor =>
      if floor ≤ c then (none, q) else queryAndCache q s a (some c)
    | some c, none => queryAndCache q s a (some c)
    | none, _ => queryAndCache q s a none

/-- Run a sequence of `get_latest_materialization_record` calls against a single
cache state (one tick), threading the state, and collect the answers. -/
def runQueries (s : FactStore) :
    CachingInstanceQueryer → List (AssetKey × Option Nat) → List (Option MatRecord)
  | _, [] => []
  | q, (a, c) :: rest =>
    let res := q.getLatestMaterializationRecord s a c
    res.1 :: runQueries s res.2 rest

/-- Cache coherence with respect to a store: every positive entry is the overall
latest materialization record of its asset, and every negative floor is at or
above the storage id of every materialization record of its asset. -/
def CachingInstanceQueryer.Coherent (q : CachingInstanceQueryer) (s : FactStore) :
    Prop :=
  (∀ a r, q.latestMaterializationRecordCache a = some r →
    r ∈ s.mats ∧ r.assetKey = a ∧
      ∀ r2 ∈ s.mats, r2.assetKey = a → r2.storageId ≤ r.storageId) ∧
  (∀ a n, q.noMaterializationsAfterCursorCache a = some n →
    ∀ r ∈ s.mats, r.assetKey = a → r.storageId ≤ n)

theorem lastMatching_eq_some {α : Type} {p : α → Bool} {l : List α} {x : α}
    (h : lastMatching p l = some x) : x ∈ l ∧ p x = true := by
  induction l with
  | nil => simp [lastMatching] at h
  | cons y rest ih =>
    simp only [lastMatching] at h
    rcases hr : lastMatching p rest with _ | z
    · rw [hr] at h
      by_cases hp : p y
      · simp [hp] at h
        subst h
        exact ⟨List.mem_cons_self _ _, hp⟩
      · simp [hp] at h
    · rw [hr] at h
      obtain rfl : z = x := by simpa using h
      obtain ⟨hm, hpx⟩ := ih hr
      exact ⟨List.mem_cons_of_mem _ hm, hpx⟩

theorem lastMatching_eq_none {α : Type} {p : α → Bool} {l : List α} :
    lastMatching p l = none ↔ ∀ x ∈ l, p x = false := by
  induction l with
  | nil => simp [lastMatching]
  | cons y rest ih =>
    simp only [lastMatching]
    rcases hr : lastMatching p rest with _ | z
    · have hall := ih.mp hr
      by_cases hp : p y
      · simp only [hp, if_true]
        constructor
        · intro h; exact absurd h (by simp)
        · intro h
          have := h y (List.mem_cons_self _ _)
          rw [hp] at this
          exact absurd this (by simp)
      · simp only [Bool.not_eq_true] at hp
        simp only [hp, if_false]
        constructor
        · intro _
          intro x hx
          rcases List.mem_cons.mp hx with rfl | hx'
          · exact hp
          · exact hall x hx'
        · intro _; rfl
    · constructor
      · intro h; exact absurd h (by simp)
      · intro h
        have hz := lastMatching_eq_some hr
        have := h z (List.mem_cons_of_mem _ hz.1)
        rw [hz.2] at this
        exact absurd this (by simp)

theorem lastMatching_isMax {α : Type} {f : α → Nat} {p : α → Bool} {l : List α}
    {x : α} (hl : l.Pairwise (fun u v => f u < f v))
    (h : lastMatching p l = some x) :
    ∀ y ∈ l, p y = true → f y ≤ f x := by
  induction l with
  | nil => simp [lastMatching] at h
  | cons z rest ih =>
    simp only [lastMatching] at h
    have hpw := List.pairwise_cons.mp hl
    rcases hr : lastMatching p rest with _ | w
    · rw [hr] at h
      by_cases hp : p z
      · simp [hp] at h
        subst h
        intro y hy hpy
        rcases List.mem_cons.mp hy with rfl | hy'
        · exact le_refl _
        · rw [lastMatching_eq_none] at hr
          have := hr y hy'
          rw [hpy] at this
          exact absurd this (by simp)
      · simp [hp] at h
    · rw [hr] at h
      have hwx : w = x := by simpa using h
      intro y hy hpy
      rcases List.mem_cons.mp hy with rfl | hy'
      · have hx1 := lastMatching_eq_some hr
        rw [← hwx]
        exact le_of_lt (hpw.1 w hx1.1)
      · exact ih hpw.2 (hwx ▸ hr) y hy' hpy

theorem pairwise_mono_inj {α : Type} {f : α → Nat} {l : List α}
    (hl : l.Pairwise (fun u v => f u < f v)) {x y : α}
    (hx : x ∈ l) (hy : y ∈ l) (hf : f x = f y) : x = y := by
  induction l with
  | nil => simp at hx
  | cons z rest ih =>
    have hpw := List.pairwise_cons.mp hl
    rcases List.mem_cons.mp hx with rfl | hx' <;>
      rcases List.mem_cons.mp hy with rfl | hy'
    · rfl
    · exact absurd hf (Nat.ne_of_lt (hpw.1 y hy'))
    · exact absurd hf.symm (Nat.ne_of_lt (hpw.1 x hx'))
    · exact ih hpw.2 hx' hy'

theorem lastMatching_of_max {α : Type} {f : α → Nat} {p : α → Bool} {l : List α}
    {x : α} (hl : l.Pairwise (fun u v => f u < f v)) (hx : x ∈ l)
    (hpx : p x = true) (hmax : ∀ y ∈ l, p y = true → f y ≤ f x) :
    lastMatching p l = some x := by
  rcases hz : lastMatching p l with _ | z
  · rw [lastMatching_eq_none] at hz
    have := hz x hx
    rw [hpx] at this
    exact absurd this (by simp)
  · obtain ⟨hzm, hzp⟩ := lastMatching_eq_some hz
    have h1 : f x ≤ f z := lastMatching_isMax hl hz x hx hpx
    have h2 : f z ≤ f x := hmax z hzm hzp
    have : z = x := pairwise_mono_inj hl hzm hx (Nat.le_antisymm h2 h1)
    rw [this]

theorem matchesMatQuery_eq_true {a : AssetKey} {after : Option Nat}
    {r : MatRecord} :
    matchesMatQuery a after r = true ↔
      r.assetKey = a ∧ ∀ c, after = some c → c < r.storageId := by
  rcases after with _ | c <;> simp [matchesMatQuery, Option.all]

theorem latest_of_overall_max {s : FactStore} (hs : s.WF) {a : AssetKey}
    {r : MatRecord} (hmem : r ∈ s.mats) (hkey : r.assetKey = a)
    (hmax : ∀ r2 ∈ s.mats, r2.assetKey = a → r2.storageId ≤ r.storageId)
    {after : Option Nat} (hafter : ∀ c, after = some c → c < r.storageId) :
    s.latestMaterializationRecord a after = some r := by
  apply lastMatching_of_max hs.1 hmem
  · exact matchesMatQuery_eq_true.mpr ⟨hkey, hafter⟩
  · intro y hy hpy
    exact hmax y hy (matchesMatQuery_eq_true.mp hpy).1

theorem latest_eq_none_of_bound {s : FactStore} {a : AssetKey} {bound : Nat}
    (hbound : ∀ r2 ∈ s.mats, r2.assetKey = a → r2.storageId ≤ bound)
    {c : Nat} (hc : bound ≤ c) :
    s.latestMaterializationRecord a (some c) = none := by
  rw [FactStore.latestMaterializationRecord, lastMatching_eq_none]
  intro r hr
  by_cases hk : r.assetKey = a
  · have h1 : r.storageId ≤ c := Nat.le_trans (hbound r hr hk) hc
    rcases h2 : matchesMatQuery a (some c) r with _ | _
    · rfl
    · have := (matchesMatQuery_eq_true.mp h2).2 c rfl
      omega
  · rcases h2 : matchesMatQuery a (some c) r with _ | _
    · rfl
    · exact absurd (matchesMatQuery_eq_true.mp h2).1 hk

theorem latest_some_spec {s : FactStore} (hs : s.WF) {a : AssetKey}
    {after : Option Nat} {r : MatRecord}
    (h : s.latestMaterializationRecord a after = some r) :
    r ∈ s.mats ∧ r.assetKey = a ∧
      (∀ c, after = some c → c < r.storageId) ∧
      ∀ r2 ∈ s.mats, r2.assetKey = a → r2.storageId ≤ r.storageId := by
  obtain ⟨hmem, hp⟩ := lastMatching_eq_some h
  obtain ⟨hkey, hbound⟩ := matchesMatQuery_eq_true.mp hp
  refine ⟨hmem, hkey, hbound, ?_⟩
  intro r2 h2 hk2
  by_cases hle : r2.storageId ≤ r.storageId
  · exact hle
  · push_neg at hle
    have hm2 : matchesMatQuery a after r2 = true := by
      refine matchesMatQuery_eq_true.mpr ⟨hk2, ?_⟩
      intro c hc
      exact Nat.lt_trans (hbound c hc) hle
    have := lastMatching_isMax hs.1 h r2 h2 hm2
    omega

theorem latest_none_spec {s : FactStore} {a : AssetKey} {after : Option Nat}
    (h : s.latestMaterializationRecord a after = none) :
    ∀ r ∈ s.mats, r.assetKey = a → ∀ c, after = some c → r.storageId ≤ c := by
  rw [FactStore.latestMaterializationRecord, lastMatching_eq_none] at h
  intro r hr hk c hc
  by_contra hgt
  push_neg at hgt
  have hm : matchesMatQuery a after r = true := by
    refine matchesMatQuery_eq_true.mpr ⟨hk, ?_⟩
    intro c' hc'
    rw [hc] at hc'
    injection hc' with e
    omega
  rw [h r hr] at hm
  exact absurd hm (by simp)

theorem updateFun_same {β : Type} (f : AssetKey → β) (a : AssetKey) (v : β) :
    updateFun f a v a = v := by
  simp [updateFun]

theorem updateFun_other {β : Type} (f : AssetKey → β) (a : AssetKey) (v : β)
    {k : AssetKey} (h : k ≠ a) : updateFun f a v k = f k := by
  simp [updateFun, h]

theorem queryAndCache_eq_some (q : CachingInstanceQueryer) (s : FactStore)
    {a : AssetKey} {after : Option Nat} {r : MatRecord}
    (h : s.latestMaterializationRecord a after = some r) :
    queryAndCache q s a after =
      (some r,
        ⟨updateFun q.latestMaterializationRecordCache a (some r),
          q.noMaterializationsAfterCursorCache⟩) := by
  simp [queryAndCache, h]

theorem queryAndCache_eq_miss_cursor (q : CachingInstanceQueryer)
    (s : FactStore) {a : AssetKey} {c : Nat}
    (h : s.latestMaterializationRecord a (some c) = none) :
    queryAndCache q s a (some c) =
      (none,
        ⟨q.latestMaterializationRecordCache,
          updateFun q.noMaterializationsAfterCursorCache a
            (some (min c ((q.noMaterializationsAfterCursorCache a).getD c)))⟩) := by
  simp [queryAndCache, h]

theorem queryAndCache_eq_miss_nocursor (q : CachingInstanceQueryer)
    (s : FactStore) {a : AssetKey}
    (h : s.latestMaterializationRecord a none = none) :
    queryAndCache q s a none = (none, q) := by
  simp [queryAndCache, h]

theorem queryAndCache_correct (s : FactStore) (hs : s.WF)
    (q : CachingInstanceQueryer) (hq : q.Coherent s) (a : AssetKey)
    (after : Option Nat) :
    (queryAndCache q s a after).1 = s.latestMaterializationRecord a after ∧
      (queryAndCache q s a after).2.Coherent s := by
  obtain ⟨hqpos, hqneg⟩ := hq
  rcases hstore : s.latestMaterializationRecord a after with _ | r
  · rcases hafter : after with _ | c
    · subst hafter
      rw [queryAndCache_eq_miss_nocursor q s hstore]
      exact ⟨rfl, hqpos, hqneg⟩
    · subst hafter
      rw [queryAndCache_eq_miss_cursor q s hstore]
      refine ⟨rfl, hqpos, ?_⟩
      have hmiss := latest_none_spec hstore
      intro a2 n h2 r2 hr2 hk2
      have h2' : updateFun q.noMaterializationsAfterCursorCache a
          (some (min c ((q.noMaterializationsAfterCursorCache a).getD c))) a2 =
            some n := h2
      by_cases hka : a2 = a
      · subst hka
        rw [updateFun_same] at h2'
        injection h2' with h2'
        subst h2'
        have h3 := hmiss r2 hr2 hk2 c rfl
        rcases hfl : q.noMaterializationsAfterCursorCache a2 with _ | floor
        · simp only [hfl, Option.getD_none]
          omega
        · have h4 := hqneg a2 floor hfl r2 hr2 hk2
          simp only [hfl, Option.getD_some]
          omega
      · rw [updateFun_other _ _ _ hka] at h2'
        exact hqneg a2 n h2' r2 hr2 hk2
  · rw [queryAndCache_eq_some q s hstore]
    refine ⟨rfl, ?_, hqneg⟩
    have hspec := latest_some_spec hs hstore
    intro a2 r2 h2
    have h2' : updateFun q.latestMaterializationRecordCache a (some r) a2 =
        some r2 := h2
    by_cases hka : a2 = a
    · subst hka
      rw [updateFun_same] at h2'
      injection h2' with h2'
      subst h2'
      exact ⟨hspec.1, hspec.2.1, hspec.2.2.2⟩
    · rw [updateFun_other _ _ _ hka] at h2'
      exact hqpos a2 r2 h2'

theorem getLatest_step_correct (s : FactStore) (hs : s.WF)
    (q : CachingInstanceQueryer) (hq : q.Coherent s) (a : AssetKey)
    (after : Option Nat) :
    (q.getLatestMaterializationRecord s a after).1 =
        s.latestMaterializationRecord a after ∧
      (q.getLatestMaterializationRecord s a after).2.Coherent s := by
  rcases hpos : q.latestMaterializationRecordCache a with _ | cached
  · rcases hafter : after with _ | c
    · simp only [CachingInstanceQueryer.getLatestMaterializationRecord, hpos]
      exact queryAndCache_correct s hs q hq a none
    · rcases hfl : q.noMaterializationsAfterCursorCache a with _ | floor
      · simp only [CachingInstanceQueryer.getLatestMaterializationRecord, hpos,
          hfl]
        exact queryAndCache_correct s hs q hq a (some c)
      · simp only [CachingInstanceQueryer.getLatestMaterializationRecord, hpos,
          hfl]
        by_cases hle : floor ≤ c
        · rw [if_pos hle]
          have hlatest : s.latestMaterializationRecord a (some c) = none :=
            latest_eq_none_of_bound (hq.2 a floor hfl) hle
          exact ⟨hlatest.symm, hq⟩
        · rw [if_neg hle]
          exact queryAndCache_correct s hs q hq a (some c)
  · have hcached := hq.1 a cached hpos
    simp only [CachingInstanceQueryer.getLatestMaterializationRecord, hpos]
    rcases hafter : after with _ | c
    · have hcond : (Option.all (fun c => decide (c < cached.storageId))
          (none : Option Nat)) = true := rfl
      rw [if_pos hcond]
      have hlatest : s.latestMaterializationRecord a none = some cached :=
        latest_of_overall_max hs hcached.1 hcached.2.1 hcached.2.2
          (by intro c hc; exact absurd hc (by simp))
      exact ⟨hlatest.symm, hq⟩
    · by_cases hlt : c < cached.storageId
      · have hcond : (Option.all (fun x => decide (x < cached.storageId))
            (some c)) = true := by simp [Option.all, hlt]
        rw [if_pos hcond]
        have hlatest : s.latestMaterializationRecord a (some c) = some cached :=
          latest_of_overall_max hs hcached.1 hcached.2.1 hcached.2.2
            (by intro c2 hc2; injection hc2 with e; omega)
        exact ⟨hlatest.symm, hq⟩
      · have hcond : ¬ ((Option.all (fun x => decide (x < cached.storageId))
            (some c)) = true) := by simp [Option.all]; omega
        rw [if_neg hcond]
        have hlatest : s.latestMaterializationRecord a (some c) = none :=
          latest_eq_none_of_bound hcached.2.2 (Nat.le_of_not_lt hlt)
        exact ⟨hlatest.symm, hq⟩

theorem runQueries_eq_map (s : FactStore) (hs : s.WF) :
    ∀ (qs : List (AssetKey × Option Nat)) (q : CachingInstanceQueryer),
      q.Coherent s →
        runQueries s q qs =
          qs.map fun x => s.latestMaterializationRecord x.1 x.2
  | [], _, _ => rfl
  | (a, c) :: rest, q, hq => by
    have h := getLatest_step_correct s hs q hq a c
    simp only [runQueries, List.map]
    rw [h.1, runQueries_eq_map s hs rest _ h.2]

/-- C1: within a single tick (one `CachingInstanceQueryer`, starting from the
empty caches) against a fact store whose contents do not change during the
tick, every sequence of `get_latest_materialization_record(asset, afterCursor)`
calls returns exactly what the direct uncached store query would return — the
positive cache and the negative floor cache never change the observable
result. -/
theorem caching_queryer_equals_direct_query (s : FactStore) (hs : s.WF)
    (qs : List (AssetKey × Option Nat)) :
    runQueries s CachingInstanceQueryer.init qs =
      qs.map fun x => s.latestMaterializationRecord x.1 x.2 := by
  apply runQueries_eq_map s hs
  constructor
  · intro a r h
    exact absurd h (by simp [CachingInstanceQueryer.init])
  · intro a n h
    exact absurd h (by simp [CachingInstanceQueryer.init])

/-- Witness for C1 at a concrete store and query sequence that exercises the
positive cache (repeat query, tightened cursor) and the negative floor cache
(miss, then repeat miss at a higher cursor). -/
theorem caching_queryer_equals_direct_query_witness :
    (FactStore.WF ⟨[⟨["x"], 1, "r1"⟩, ⟨["x"], 2, "r2"⟩], [], []⟩) ∧
      runQueries ⟨[⟨["x"], 1, "r1"⟩, ⟨["x"], 2, "r2"⟩], [], []⟩
          CachingInstanceQueryer.init
          [(["x"], none), (["x"], some 1), (["x"], some 2), (["y"], some 5),
            (["y"], some 3), (["y"], none), (["x"], none)] =
        [(["x"], none), (["x"], some 1), (["x"], some 2), (["y"], some 5),
            (["y"], some 3), (["y"], none), (["x"], none)].map
          fun x =>
            FactStore.latestMaterializationRecord
              ⟨[⟨["x"], 1, "r1"⟩, ⟨["x"], 2, "r2"⟩], [], []⟩ x.1 x.2 :=
  ⟨⟨by decide, by decide⟩,
    caching_queryer_equals_direct_query _ ⟨by decide, by decide⟩ _⟩

/-- Python truthiness of an optional cursor value (`if cursor_val:` and
`if current_asset_cursor:` in `reconcile`): `None` and `0` are both falsy;
a truthy value is kept. -/
def truthyCursor (o : Option Nat) : Option Nat :=
  match o with
  | some v => if v = 0 then none else some v
  | none => none

/-- Whether a parent currently has a planned materialization belonging to an
in-progress run (the in-progress test of `_get_parent_updates`): its latest
planned-materialization record exists and that record's run is in progress. -/
def parentInProgress (s : FactStore) (p : AssetKey) : Bool :=
  match s.latestPlannedMaterializationRecord p with
  | some pr => s.isRunInProgress pr.runId
  | none => false

/-- The per-parent entry `_get_parent_updates` computes when no in-progress
short-circuit fires: a parent already slated for materialization counts as
updated with no cursor candidate; otherwise the latest materialization of the
parent after the asset's cursor decides the status — updated unless its run
also planned to materialize the current asset, contributing its storage id as
a cursor candidate either way — and a parent with no such record is not
updated. -/
def parentStatus (s : FactStore) (currentAsset : AssetKey) (cursor : Option Nat)
    (willMaterializeSet : List AssetKey) (p : AssetKey) : Bool × Option Nat :=
  if p ∈ willMaterializeSet then (true, none)
  else
    match s.latestMaterializationRecord p cursor with
    | some r =>
      (!(s.runPlannedToMaterializeAsset currentAsset r.runId), some r.storageId)
    | none => (false, none)

/-- `_get_parent_updates`.  The source iterates over the parent set in
unspecified order, but the returned dictionary does not depend on that order:
when `wait_for_in_progress_runs` holds and some parent that is not already
slated has a planned materialization in an in-progress run, the function
returns every parent mapped to `(False, None)` (overriding anything computed
before the short-circuit); otherwise each parent's entry depends only on that
parent.  The embedding returns the per-parent entry function. -/
def getParentUpdates (s : FactStore) (currentAsset : AssetKey)
    (parentAssets : List AssetKey) (cursor : Option Nat)
    (willMaterializeSet : List AssetKey) (waitForInProgressRuns : Bool) :
    AssetKey → Bool × Option Nat :=
  if waitForInProgressRuns &&
      parentAssets.any
        (fun p => !(willMaterializeSet.contains p) && parentInProgress s p) then
    fun _ => (false, none)
  else parentStatus s currentAsset cursor willMaterializeSet

/-- The decision test of the `reconcile` loop body for one asset:
`all`/`any` (selected by `wait_for_all_upstream`) of the parents' updated
flags from `_get_parent_updates`, given the will-materialize set accumulated
so far. -/
def assetCondition (s : FactStore) (upstream : AssetKey → List AssetKey)
    (waitForAllUpstream waitForInProgressRuns : Bool)
    (prevCursor : AssetKey → Option Nat) (willMaterializeSet : List AssetKey)
    (currentAsset : AssetKey) : Bool :=
  let records := getParentUpdates s currentAsset (upstream currentAsset)
    (prevCursor currentAsset) willMaterializeSet waitForInProgressRuns
  let statuses := (upstream currentAsset).map fun p => (records p).1
  if waitForAllUpstream then statuses.all id else statuses.any id

/-- The cursor-update candidates of the `reconcile` loop body for one asset:
the truthy (`if cursor_val:`) cursor candidates among the parents' statuses,
followed by the asset's previous cursor when truthy
(`[current_asset_cursor] if current_asset_cursor else []`). -/
def assetCandidates (s : FactStore) (upstream : AssetKey → List AssetKey)
    (waitForInProgressRuns : Bool) (prevCursor : AssetKey → Option Nat)
    (willMaterializeSet : List AssetKey) (currentAsset : AssetKey) : List Nat :=
  let records := getParentUpdates s currentAsset (upstream currentAsset)
    (prevCursor currentAsset) willMaterializeSet waitForInProgressRuns
  ((upstream currentAsset).filterMap fun p => truthyCursor (records p).2) ++
    (truthyCursor (prevCursor currentAsset)).toList

/-- One iteration of the `reconcile` loop over the topologically sorted
monitored assets: decide the asset via `assetCondition`; on selection add it
to the will-materialize set and set its newly consumed cursor value to the
maximum of `assetCandidates` (`max(cursor_update_candidates)`), leaving it
unset when there are no candidates. -/
def reconcileStep (s : FactStore) (upstream : AssetKey → List AssetKey)
    (waitForAllUpstream waitForInProgressRuns : Bool)
    (prevCursor : AssetKey → Option Nat)
    (acc : List AssetKey × (AssetKey → Option Nat)) (currentAsset : AssetKey) :
    List AssetKey × (AssetKey → Option Nat) :=
  if assetCondition s upstream waitForAllUpstream waitForInProgressRuns
      prevCursor acc.1 currentAsset then
    (acc.1.insert currentAsset,
      if (assetCandidates s upstream waitForInProgressRuns prevCursor acc.1
          currentAsset).isEmpty then acc.2
      else
        updateFun acc.2 currentAsset
          (some ((assetCandidates s upstream waitForInProgressRuns prevCursor
            acc.1 currentAsset).foldl max 0)))
  else acc

/-- The loop of `reconcile`: process the monitored assets in topological order,
starting from an empty will-materialize set and no newly consumed cursor
values.  In the source the queries go through a fresh `CachingInstanceQueryer`;
by `caching_queryer_equals_direct_query` (and because the planned / run caches
memoize cursor-independent queries) the cached answers equal the direct store
queries used here.  The upstream map and the topological order are parameters;
the source computes them with `_get_upstream_mapping` and `toposort`, and
claims that need topological validity state it as a hypothesis. -/
def reconcileLoop (s : FactStore) (upstream : AssetKey → List AssetKey)
    (order : List AssetKey) (waitForAllUpstream waitForInProgressRuns : Bool)
    (prevCursor : AssetKey → Option Nat) :
    List AssetKey × (AssetKey → Option Nat) :=
  order.foldl
    (reconcileStep s upstream waitForAllUpstream waitForInProgressRuns prevCursor)
    ([], fun _ => none)

/-- A run request: the selected asset keys plus the caller-supplied tags. -/
structure RunRequest where
  assetSelection : List AssetKey
  tags : List (String × String)
  deriving DecidableEq, Repr

/-- `reconcile`: run the loop, then emit a single `RunRequest` carrying the
whole will-materialize set (none when it is empty), alongside the newly
consumed cursor values. -/
def reconcile (s : FactStore) (upstream : AssetKey → List AssetKey)
    (order : List AssetKey) (waitForAllUpstream waitForInProgressRuns : Bool)
    (prevCursor : AssetKey → Option Nat) (runTags : List (String × String)) :
    List RunRequest × (AssetKey → Option Nat) :=
  let res := reconcileLoop s upstream order waitForAllUpstream
    waitForInProgressRuns prevCursor
  (if res.1.isEmpty then [] else [⟨res.1, runTags⟩], res.2)

/-- `merge_dicts(latest_consumed, newly_consumed)` in `sensor_fn`: the merged
cursor persisted after a tick, newly computed values taking precedence per
key. -/
def mergeCursors (prev newly : AssetKey → Option Nat) : AssetKey → Option Nat :=
  fun k =>
    match newly k with
    | some v => some v
    | none => prev k

/-- Modelled from the spec:
`AssetSelection.keys(a).upstream(depth=1).resolve([*assets, *source_assets])`
is not part of the source tree (only its caller `_get_upstream_mapping` is).
Per the spec (sections 3, 4.1 and 6) it yields the depth-1 upstream
neighborhood of the asset (which includes the asset itself) restricted to the
current monitored selection, so parents outside the selection are structurally
absent. -/
def upstreamResolve (parentsOf : AssetKey → List AssetKey)
    (selectionResolved : List AssetKey) (a : AssetKey) : List AssetKey :=
  (a :: parentsOf a).filter fun p => selectionResolved.contains p

/-- `_get_upstream_mapping`: for each monitored asset, its resolved depth-1
upstream neighborhood with the asset itself filtered out (the source comment:
"filter out a because upstream() includes the assets in the original
AssetSelection"). -/
def getUpstreamMapping (parentsOf : AssetKey → List AssetKey)
    (selectionResolved : List AssetKey) (a : AssetKey) : List AssetKey :=
  (upstreamResolve parentsOf selectionResolved a).filter fun p => p != a

theorem le_foldl_max (l : List Nat) : ∀ a : Nat, a ≤ l.foldl max a := by
  induction l with
  | nil => intro a; exact Nat.le_refl a
  | cons u rest ih =>
    intro a
    exact Nat.le_trans (Nat.le_max_left a u) (ih (max a u))

theorem mem_le_foldl_max {l : List Nat} {x : Nat} (h : x ∈ l) :
    ∀ a : Nat, x ≤ l.foldl max a := by
  induction l with
  | nil => simp at h
  | cons u rest ih =>
    intro a
    rcases List.mem_cons.mp h with rfl | h2
    · exact Nat.le_trans (Nat.le_max_right a x) (le_foldl_max rest (max a x))
    · exact ih h2 (max a u)

theorem reconcileStep_fst_mono {s : FactStore}
    {upstream : AssetKey → List AssetKey} {wa wi : Bool}
    {prev : AssetKey → Option Nat} {acc : List AssetKey × (AssetKey → Option Nat)}
    {b k : AssetKey} (h : k ∈ acc.1) :
    k ∈ (reconcileStep s upstream wa wi prev acc b).1 := by
  rw [reconcileStep]
  split
  · exact List.mem_insert_iff.mpr (Or.inr h)
  · exact h

theorem reconcileStep_fst_sub {s : FactStore}
    {upstream : AssetKey → List AssetKey} {wa wi : Bool}
    {prev : AssetKey → Option Nat} {acc : List AssetKey × (AssetKey → Option Nat)}
    {b k : AssetKey} (h : k ∈ (reconcileStep s upstream wa wi prev acc b).1) :
    k = b ∨ k ∈ acc.1 := by
  rw [reconcileStep] at h
  split at h
  · rcases List.mem_insert_iff.mp h with h2 | h2
    · exact Or.inl h2
    · exact Or.inr h2
  · exact Or.inr h

theorem reconcileStep_snd_frame {s : FactStore}
    {upstream : AssetKey → List AssetKey} {wa wi : Bool}
    {prev : AssetKey → Option Nat} {acc : List AssetKey × (AssetKey → Option Nat)}
    {b k : AssetKey} (h : k ≠ b) :
    (reconcileStep s upstream wa wi prev acc b).2 k = acc.2 k := by
  rw [reconcileStep]
  split
  · split
    · rfl
    · exact updateFun_other _ _ _ h
  · rfl

theorem reconcileFold_fst_mono {s : FactStore}
    {upstream : AssetKey → List AssetKey} {wa wi : Bool}
    {prev : AssetKey → Option Nat} {k : AssetKey} :
    ∀ (order : List AssetKey) (acc : List AssetKey × (AssetKey → Option Nat)),
      k ∈ acc.1 →
        k ∈ (order.foldl (reconcileStep s upstream wa wi prev) acc).1
  | [], _, h => h
  | b :: rest, acc, h =>
    reconcileFold_fst_mono rest _ (reconcileStep_fst_mono h)

theorem reconcileFold_fst_sub {s : FactStore}
    {upstream : AssetKey → List AssetKey} {wa wi : Bool}
    {prev : AssetKey → Option Nat} {k : AssetKey} :
    ∀ (order : List AssetKey) (acc : List AssetKey × (AssetKey → Option Nat)),
      k ∈ (order.foldl (reconcileStep s upstream wa wi prev) acc).1 →
        k ∈ acc.1 ∨ k ∈ order
  | [], _, h => Or.inl h
  | b :: rest, acc, h => by
    rcases reconcileFold_fst_sub rest _ h with h2 | h2
    · rcases reconcileStep_fst_sub h2 with h3 | h3
      · exact Or.inr (h3 ▸ List.mem_cons_self b rest)
      · exact Or.inl h3
    · exact Or.inr (List.mem_cons_of_mem b h2)

theorem reconcileFold_snd_frame {s : FactStore}
    {upstream : AssetKey → List AssetKey} {wa wi : Bool}
    {prev : AssetKey → Option Nat} {k : AssetKey} :
    ∀ (order : List AssetKey) (acc : List AssetKey × (AssetKey → Option Nat)),
      k ∉ order →
        (order.foldl (reconcileStep s upstream wa wi prev) acc).2 k = acc.2 k
  | [], _, _ => rfl
  | b :: rest, acc, h => by
    have hkb : k ≠ b := fun e => h (e ▸ List.mem_cons_self b rest)
    have hrest : k ∉ rest := fun e => h (List.mem_cons_of_mem b e)
    rw [List.foldl_cons, reconcileFold_snd_frame rest _ hrest,
      reconcileStep_snd_frame hkb]

theorem reconcileStep_nc_mem {s : FactStore}
    {upstream : AssetKey → List AssetKey} {wa wi : Bool}
    {prev : AssetKey → Option Nat} {acc : List AssetKey × (AssetKey → Option Nat)}
    {b : AssetKey} (hacc : ∀ k, acc.2 k ≠ none → k ∈ acc.1) :
    ∀ k, (reconcileStep s upstream wa wi prev acc b).2 k ≠ none →
      k ∈ (reconcileStep s upstream wa wi prev acc b).1 := by
  intro k hk
  by_cases hkb : k = b
  · subst hkb
    rw [reconcileStep]
    split
    · exact List.mem_insert_iff.mpr (Or.inl rfl)
    · rw [reconcileStep] at hk
      rw [if_neg (by assumption)] at hk
      exact hacc k hk
  · rw [reconcileStep_snd_frame hkb] at hk
    exact reconcileStep_fst_mono (hacc k hk)

theorem reconcileFold_nc_mem {s : FactStore}
    {upstream : AssetKey → List AssetKey} {wa wi : Bool}
    {prev : AssetKey → Option Nat} :
    ∀ (order : List AssetKey) (acc : List AssetKey × (AssetKey → Option Nat)),
      (∀ k, acc.2 k ≠ none → k ∈ acc.1) →
        ∀ k, (order.foldl (reconcileStep s upstream wa wi prev) acc).2 k ≠ none →
          k ∈ (order.foldl (reconcileStep s upstream wa wi prev) acc).1
  | [], _, hacc, k, hk => hacc k hk
  | b :: rest, acc, hacc, k, hk =>
    reconcileFold_nc_mem rest _ (reconcileStep_nc_mem hacc) k hk

theorem reconcileStep_cursor_mono {s : FactStore}
    {upstream : AssetKey → List AssetKey} {wa wi : Bool}
    {prev : AssetKey → Option Nat} {acc : List AssetKey × (AssetKey → Option Nat)}
    {b : AssetKey}
    (hacc : ∀ k v w, prev k = some v → acc.2 k = some w → v ≤ w) :
    ∀ k v w, prev k = some v →
      (reconcileStep s upstream wa wi prev acc b).2 k = some w → v ≤ w := by
  intro k v w hp hw
  by_cases hkb : k = b
  · subst hkb
    rw [reconcileStep] at hw
    split at hw
    · dsimp only at hw
      split at hw
      · exact hacc k v w hp hw
      · rw [updateFun_same] at hw
        injection hw with hw
        subst hw
        by_cases hv : v = 0
        · subst hv; exact Nat.zero_le _
        · have hmem : v ∈ assetCandidates s upstream wi prev acc.1 k := by
            simp only [assetCandidates]
            refine List.mem_append.mpr (Or.inr ?_)
            simp [truthyCursor, hp, hv]
          exact mem_le_foldl_max hmem 0
    · exact hacc k v w hp hw
  · rw [reconcileStep_snd_frame hkb] at hw
    exact hacc k v w hp hw

theorem reconcileFold_cursor_mono {s : FactStore}
    {upstream : AssetKey → List AssetKey} {wa wi : Bool}
    {prev : AssetKey → Option Nat} :
    ∀ (order : List AssetKey) (acc : List AssetKey × (AssetKey → Option Nat)),
      (∀ k v w, prev k = some v → acc.2 k = some w → v ≤ w) →
        ∀ k v w, prev k = some v →
          (order.foldl (reconcileStep s upstream wa wi prev) acc).2 k = some w →
            v ≤ w
  | [], _, hacc => hacc
  | _ :: rest, _, hacc =>
    reconcileFold_cursor_mono rest _ (reconcileStep_cursor_mono hacc)

/-- C6: the per-asset cursor is monotone across ticks: whatever cursor value an
asset key had before a tick, the merged cursor returned by the tick maps that
key to a value at least as large (a newly computed entry is the maximum of the
recorded candidates and, when truthy, the previous value; the merge only
overrides present keys with such maxima). -/
theorem merged_cursor_monotone (s : FactStore)
    (upstream : AssetKey → List AssetKey) (order : List AssetKey)
    (wa wi : Bool) (prev : AssetKey → Option Nat)
    (tags : List (String × String)) (k : AssetKey) (v : Nat)
    (hk : prev k = some v) :
    ∃ w, mergeCursors prev (reconcile s upstream order wa wi prev tags).2 k =
      some w ∧ v ≤ w := by
  rcases hnc : (reconcileLoop s upstream order wa wi prev).2 k with _ | w
  · refine ⟨v, ?_, Nat.le_refl v⟩
    show mergeCursors prev (reconcileLoop s upstream order wa wi prev).2 k =
      some v
    simp only [mergeCursors, hnc, hk]
  · refine ⟨w, ?_, ?_⟩
    · show mergeCursors prev (reconcileLoop s upstream order wa wi prev).2 k =
        some w
      simp only [mergeCursors, hnc]
    · exact reconcileFold_cursor_mono order _
        (fun _ _ _ _ h2 => by exact absurd h2 (by simp)) k v w hk hnc

/-- Witness for C6 at a concrete tick: a key carrying cursor value 5 into a
tick still maps to at least 5 afterwards. -/
theorem merged_cursor_monotone_witness :
    ((fun k => if k = ["a"] then some 5 else none) (["a"] : AssetKey) =
        some 5) ∧
      ∃ w, mergeCursors (fun k => if k = ["a"] then some 5 else none)
          (reconcile ⟨[], [], []⟩ (fun _ => []) [["a"]] false true
            (fun k => if k = ["a"] then some 5 else none) []).2 ["a"] =
        some w ∧ 5 ≤ w :=
  ⟨by decide,
    merged_cursor_monotone _ _ _ false true _ [] ["a"] 5 (by decide)⟩

/-- C9: an asset key that is not added to the will-materialize set keeps
exactly its previous cursor entry in the merged cursor returned by the tick:
present afterwards if and only if present before, with an unchanged value. -/
theorem unselected_asset_keeps_cursor_entry (s : FactStore)
    (upstream : AssetKey → List AssetKey) (order : List AssetKey)
    (wa wi : Bool) (prev : AssetKey → Option Nat)
    (tags : List (String × String)) (k : AssetKey)
    (hk : k ∉ (reconcileLoop s upstream order wa wi prev).1) :
    mergeCursors prev (reconcile s upstream order wa wi prev tags).2 k =
      prev k := by
  have hnc : (reconcileLoop s upstream order wa wi prev).2 k = none := by
    by_contra h
    exact hk (reconcileFold_nc_mem order _ (fun _ h2 => absurd rfl h2) k h)
  show mergeCursors prev (reconcileLoop s upstream order wa wi prev).2 k =
    prev k
  simp only [mergeCursors, hnc]

/-- Witness for C9 at a concrete tick: an unselected asset's cursor entry is
unchanged (here: still absent). -/
theorem unselected_asset_keeps_cursor_entry_witness :
    ((["a"] : AssetKey) ∉
        (reconcileLoop ⟨[], [], []⟩ (fun _ => []) [["a"]] false true
          (fun _ => none)).1) ∧
      mergeCursors (fun _ => none)
          (reconcile ⟨[], [], []⟩ (fun _ => []) [["a"]] false true
            (fun _ => none) []).2 ["a"] =
        (fun _ => (none : Option Nat)) ["a"] :=
  ⟨by decide,
    unselected_asset_keeps_cursor_entry _ _ _ false true _ [] ["a"] (by decide)⟩

/-- Counterexample to C2 as stated: a monitored asset with an empty parent set
under `wait_for_all_upstream=True` (`all` of no statuses is vacuously true) is
selected again on the re-run tick, although the cursor is the one produced by
the previous tick and no facts were appended, so the re-run's will-materialize
set is not empty. -/
theorem rerun_tick_not_always_empty :
    (reconcileLoop ⟨[], [], []⟩ (fun _ => []) [["a"]] true false
        (mergeCursors (fun _ => none)
          (reconcileLoop ⟨[], [], []⟩ (fun _ => []) [["a"]] true false
            (fun _ => none)).2)).1 ≠ [] := by decide

/-- C2 (amended): if a tick produces an empty will-materialize set, then
re-running with the cursor it produced and with no facts appended again yields
an empty will-materialize set (hence no RunRequest) and a merged cursor equal
to the previous merged cursor. -/
theorem rerun_after_empty_tick_unchanged (s : FactStore)
    (upstream : AssetKey → List AssetKey) (order : List AssetKey)
    (wa wi : Bool) (prev : AssetKey → Option Nat)
    (tags : List (String × String))
    (h : (reconcileLoop s upstream order wa wi prev).1 = []) :
    (reconcile s upstream order wa wi
        (mergeCursors prev (reconcile s upstream order wa wi prev tags).2)
        tags).1 = [] ∧
      mergeCursors
          (mergeCursors prev (reconcile s upstream order wa wi prev tags).2)
          (reconcile s upstream order wa wi
            (mergeCursors prev (reconcile s upstream order wa wi prev tags).2)
            tags).2 =
        mergeCursors prev (reconcile s upstream order wa wi prev tags).2 := by
  have hnc : ∀ k, (reconcileLoop s upstream order wa wi prev).2 k = none := by
    intro k
    by_contra h2
    have h3 := reconcileFold_nc_mem order _ (fun _ h4 => absurd rfl h4) k h2
    have h5 : k ∈ (reconcileLoop s upstream order wa wi prev).1 := h3
    rw [h] at h5
    simp at h5
  have hm : mergeCursors prev
      (reconcile s upstream order wa wi prev tags).2 = prev := by
    funext k
    show mergeCursors prev (reconcileLoop s upstream order wa wi prev).2 k =
      prev k
    simp only [mergeCursors, hnc k]
  rw [hm]
  have h1 : (reconcile s upstream order wa wi prev tags).1 = [] := by
    show (if (reconcileLoop s upstream order wa wi prev).1.isEmpty then
        ([] : List RunRequest)
      else [RunRequest.mk (reconcileLoop s upstream order wa wi prev).1 tags]) =
        []
    rw [h]
    rfl
  exact ⟨h1, hm⟩

/-- Witness for (amended) C2 at a concrete tick that selects nothing: the
re-run selects nothing and the cursor is unchanged. -/
theorem rerun_after_empty_tick_unchanged_witness :
    ((reconcileLoop ⟨[], [], []⟩ (fun _ => []) [["a"]] false true
        (fun _ => none)).1 = []) ∧
      ((reconcile ⟨[], [], []⟩ (fun _ => []) [["a"]] false true
          (mergeCursors (fun _ => none)
            (reconcile ⟨[], [], []⟩ (fun _ => []) [["a"]] false true
              (fun _ => none) []).2) []).1 = [] ∧
        mergeCursors
            (mergeCursors (fun _ => none)
              (reconcile ⟨[], [], []⟩ (fun _ => []) [["a"]] false true
                (fun _ => none) []).2)
            (reconcile ⟨[], [], []⟩ (fun _ => []) [["a"]] false true
              (mergeCursors (fun _ => none)
                (reconcile ⟨[], [], []⟩ (fun _ => []) [["a"]] false true
                  (fun _ => none) []).2) []).2 =
          mergeCursors (fun _ => none)
            (reconcile ⟨[], [], []⟩ (fun _ => []) [["a"]] false true
              (fun _ => none) []).2) :=
  ⟨by decide,
    rerun_after_empty_tick_unchanged _ _ _ false true _ [] (by decide)⟩

theorem assetCondition_no_parents_all {s : FactStore}
    {upstream : AssetKey → List AssetKey} {wi : Bool}
    {prev : AssetKey → Option Nat} {sm : List AssetKey} {a : AssetKey}
    (hu : upstream a = []) :
    assetCondition s upstream true wi prev sm a = true := by
  simp [assetCondition, hu]

theorem assetCondition_no_parents_any {s : FactStore}
    {upstream : AssetKey → List AssetKey} {wi : Bool}
    {prev : AssetKey → Option Nat} {sm : List AssetKey} {a : AssetKey}
    (hu : upstream a = []) :
    assetCondition s upstream false wi prev sm a = false := by
  simp [assetCondition, hu]

theorem reconcileFold_no_parents_all {s : FactStore}
    {upstream : AssetKey → List AssetKey} {wi : Bool}
    {prev : AssetKey → Option Nat} {a : AssetKey} (hu : upstream a = []) :
    ∀ (order : List AssetKey) (acc : List AssetKey × (AssetKey → Option Nat)),
      a ∈ order →
        a ∈ (order.foldl (reconcileStep s upstream true wi prev) acc).1 := by
  intro order
  induction order with
  | nil => intro _ h; simp at h
  | cons b rest ih =>
    intro acc h
    by_cases hab : a = b
    · subst hab
      apply reconcileFold_fst_mono rest
      rw [reconcileStep, if_pos (assetCondition_no_parents_all hu)]
      exact List.mem_insert_iff.mpr (Or.inl rfl)
    · exact ih _ ((List.mem_cons.mp h).resolve_left hab)

theorem reconcileFold_no_parents_any {s : FactStore}
    {upstream : AssetKey → List AssetKey} {wi : Bool}
    {prev : AssetKey → Option Nat} {a : AssetKey} (hu : upstream a = []) :
    ∀ (order : List AssetKey) (acc : List AssetKey × (AssetKey → Option Nat)),
      a ∉ acc.1 →
        a ∉ (order.foldl (reconcileStep s upstream false wi prev) acc).1 := by
  intro order
  induction order with
  | nil => intro _ h; exact h
  | cons b rest ih =>
    intro acc h
    apply ih
    intro h2
    rcases reconcileStep_fst_sub h2 with h3 | h3
    · subst h3
      rw [reconcileStep, if_neg] at h2
      · exact h h2
      · rw [assetCondition_no_parents_any hu]
        simp
    · exact h h3

/-- C10: a monitored asset whose parent set in the upstream map is empty is
added to the will-materialize set on every tick when `wait_for_all_upstream`
is true (`all` over no parent statuses is vacuously true), and is never added
when it is false (`any` over no statuses is false), regardless of cursor state
or fact-store contents. -/
theorem parentless_asset_decision (s : FactStore)
    (upstream : AssetKey → List AssetKey) (order : List AssetKey) (wi : Bool)
    (prev : AssetKey → Option Nat) (a : AssetKey) (ha : a ∈ order)
    (hu : upstream a = []) :
    a ∈ (reconcileLoop s upstream order true wi prev).1 ∧
      a ∉ (reconcileLoop s upstream order false wi prev).1 :=
  ⟨reconcileFold_no_parents_all hu order _ ha,
    reconcileFold_no_parents_any hu order _ (by simp)⟩

/-- Witness for C10 at a concrete tick: a parentless monitored asset is
selected under all-upstream mode and not selected under any-upstream mode. -/
theorem parentless_asset_decision_witness :
    ((["a"] : AssetKey) ∈ [(["a"] : AssetKey)]) ∧
      ((fun _ => ([] : List AssetKey)) (["a"] : AssetKey) = []) ∧
      ((["a"] : AssetKey) ∈
          (reconcileLoop ⟨[], [], []⟩ (fun _ => []) [["a"]] true true
            (fun _ => none)).1 ∧
        (["a"] : AssetKey) ∉
          (reconcileLoop ⟨[], [], []⟩ (fun _ => []) [["a"]] false true
            (fun _ => none)).1) :=
  ⟨by decide, by decide,
    parentless_asset_decision _ _ _ true _ ["a"] (by decide) rfl⟩

theorem decision_false_of_all_false {parents : List AssetKey} {wa : Bool}
    {f : AssetKey → Bool} (hf : ∀ q ∈ parents, f q = false) {p : AssetKey}
    (hp : p ∈ parents) :
    (if wa then (parents.map f).all id else (parents.map f).any id) = false := by
  cases wa
  · rw [if_neg (by simp)]
    apply Bool.eq_false_iff.mpr
    intro h
    obtain ⟨b, hb, hid⟩ := List.any_eq_true.mp h
    obtain ⟨q, hq, rfl⟩ := List.mem_map.mp hb
    rw [hf q hq] at hid
    exact absurd hid (by simp)
  · rw [if_pos rfl]
    apply Bool.eq_false_iff.mpr
    intro h
    have h2 := List.all_eq_true.mp h (f p) (List.mem_map.mpr ⟨p, hp, rfl⟩)
    rw [hf p hp] at h2
    exact absurd h2 (by simp)

theorem getParentUpdates_shortcircuit {s : FactStore} {a : AssetKey}
    {parents : List AssetKey} {cur : Option Nat} {sm : List AssetKey}
    {p : AssetKey} (hp : p ∈ parents) (hns : p ∉ sm)
    (hprog : parentInProgress s p = true) :
    getParentUpdates s a parents cur sm true = fun _ => (false, none) := by
  rw [getParentUpdates, if_pos]
  rw [Bool.true_and]
  refine List.any_eq_true.mpr ⟨p, hp, ?_⟩
  rw [hprog, Bool.and_true, Bool.not_eq_true']
  exact (Bool.eq_false_iff).mpr (fun h => hns (List.mem_of_elem_eq_true h))

theorem assetCondition_of_records_false {s : FactStore}
    {upstream : AssetKey → List AssetKey} {wa wi : Bool}
    {prev : AssetKey → Option Nat} {sm : List AssetKey} {a p : AssetKey}
    (hp : p ∈ upstream a)
    (hf : ∀ q ∈ upstream a,
      (getParentUpdates s a (upstream a) (prev a) sm wi q).1 = false) :
    assetCondition s upstream wa wi prev sm a = false := by
  simp only [assetCondition]
  exact decision_false_of_all_false hf hp

/-- C5: with `wait_for_in_progress_runs=True`, if some parent of an asset is
not already in the will-materialize set when the asset is decided and that
parent's latest planned-materialization record belongs to an in-progress run,
then `_get_parent_updates` marks every parent of the asset as not-updated with
no cursor candidate (overriding any other status), and the asset is not added
to the will-materialize set this tick under either decision mode. -/
theorem in_progress_parent_blocks_asset (s : FactStore)
    (upstream : AssetKey → List AssetKey) (wa : Bool)
    (prev : AssetKey → Option Nat) (l1 l2 : List AssetKey) (a p : AssetKey)
    (pr : MatRecord) (ha1 : a ∉ l1) (ha2 : a ∉ l2) (hp : p ∈ upstream a)
    (hns : p ∉ (reconcileLoop s upstream l1 wa true prev).1)
    (hplan : s.latestPlannedMaterializationRecord p = some pr)
    (hprog : s.isRunInProgress pr.runId = true) :
    (∀ q ∈ upstream a,
        getParentUpdates s a (upstream a) (prev a)
          (reconcileLoop s upstream l1 wa true prev).1 true q =
          (false, none)) ∧
      a ∉ (reconcileLoop s upstream (l1 ++ a :: l2) wa true prev).1 := by
  have hpip : parentInProgress s p = true := by
    rw [parentInProgress, hplan]
    exact hprog
  have hgpu : getParentUpdates s a (upstream a) (prev a)
      (reconcileLoop s upstream l1 wa true prev).1 true =
        fun _ => (false, none) :=
    getParentUpdates_shortcircuit hp hns hpip
  refine ⟨fun q _ => by rw [hgpu], ?_⟩
  have hcond : assetCondition s upstream wa true prev
      (reconcileLoop s upstream l1 wa true prev).1 a = false :=
    assetCondition_of_records_false hp (fun q hq => by rw [hgpu])
  intro hmem
  have hsplit : reconcileLoop s upstream (l1 ++ a :: l2) wa true prev =
      List.foldl (reconcileStep s upstream wa true prev)
        (reconcileStep s upstream wa true prev
          (reconcileLoop s upstream l1 wa true prev) a) l2 := by
    rw [reconcileLoop, reconcileLoop, List.foldl_append, List.foldl_cons]
  rw [hsplit] at hmem
  rcases reconcileFold_fst_sub l2 _ hmem with h3 | h3
  · rw [reconcileStep, if_neg (by rw [hcond]; simp)] at h3
    rcases reconcileFold_fst_sub l1 _ h3 with h4 | h4
    · simp at h4
    · exact ha1 h4
  · exact ha2 h3

/-- Concrete store for the C5 witness: parent `p` has one completed
materialization (run `r0`) and a later planned materialization in run `rp`,
which is in progress. -/
def storeC5 : FactStore :=
  ⟨[⟨["p"], 1, "r0"⟩], [⟨["p"], 2, "rp"⟩], ["rp"]⟩

/-- Concrete upstream map for the C5 witness: asset `a` has the single parent
`p`. -/
def upstreamC5 : AssetKey → List AssetKey :=
  fun k => if k = ["a"] then [["p"]] else []

/-- Witness for C5: although `p`'s completed materialization would otherwise
qualify `a` under any-upstream mode, the in-progress planned run makes every
parent report not-updated and `a` is not selected. -/
theorem in_progress_parent_blocks_asset_witness :
    ((["a"] : AssetKey) ∉ ([] : List AssetKey)) ∧
      ((["p"] : AssetKey) ∈ upstreamC5 ["a"]) ∧
      ((["p"] : AssetKey) ∉
        (reconcileLoop storeC5 upstreamC5 [] false true (fun _ => none)).1) ∧
      (storeC5.latestPlannedMaterializationRecord ["p"] =
        some ⟨["p"], 2, "rp"⟩) ∧
      (storeC5.isRunInProgress "rp" = true) ∧
      ((∀ q ∈ upstreamC5 ["a"],
          getParentUpdates storeC5 ["a"] (upstreamC5 ["a"])
            ((fun _ => (none : Option Nat)) (["a"] : AssetKey))
            (reconcileLoop storeC5 upstreamC5 [] false true
              (fun _ => none)).1 true q = (false, none)) ∧
        (["a"] : AssetKey) ∉
          (reconcileLoop storeC5 upstreamC5 ([] ++ ["a"] :: []) false true
            (fun _ => none)).1) :=
  ⟨by decide, by decide, by decide, by decide, by decide,
    in_progress_parent_blocks_asset storeC5 upstreamC5 false (fun _ => none)
      [] [] ["a"] ["p"] ⟨["p"], 2, "rp"⟩ (by decide) (by decide) (by decide)
      (by decide) (by decide) (by decide)⟩

theorem parentStatus_comaterialized {s : FactStore} {a p : AssetKey}
    {cur : Option Nat} {sm : List AssetKey} {rec : MatRecord}
    (hns : p ∉ sm) (hrec : s.latestMaterializationRecord p cur = some rec)
    (hplanned : s.runPlannedToMaterializeAsset a rec.runId = true) :
    parentStatus s a cur sm p = (false, some rec.storageId) := by
  rw [parentStatus, if_neg hns, hrec]
  dsimp only
  rw [hplanned]
  rfl

theorem getParentUpdates_comaterialized_not_updated {s : FactStore}
    {a p : AssetKey} {parents : List AssetKey} {cur : Option Nat}
    {sm : List AssetKey} {wi : Bool} {rec : MatRecord} (hns : p ∉ sm)
    (hrec : s.latestMaterializationRecord p cur = some rec)
    (hplanned : s.runPlannedToMaterializeAsset a rec.runId = true) :
    (getParentUpdates s a parents cur sm wi p).1 = false := by
  rw [getParentUpdates]
  split
  · rfl
  · rw [parentStatus_comaterialized hns hrec hplanned]

/-- C3 (amended): if, when asset `a` is decided, its parent `p` is not already
in the will-materialize set and the latest materialization of `p` above `a`'s
cursor was produced by a run whose planned-materialization set includes `a`,
then that materialization does not count as "`p` updated" for `a`'s decision,
and its storage id is recorded as a cursor candidate, so that whenever `a` is
added to the will-materialize set this tick, `a`'s merged cursor is at least
that storage id and the event is not re-examined. -/
theorem comaterialization_excluded_and_cursor_candidate (s : FactStore)
    (hs : s.WF) (upstream : AssetKey → List AssetKey) (wa wi : Bool)
    (prev : AssetKey → Option Nat) (tags : List (String × String))
    (l1 l2 : List AssetKey) (a p : AssetKey) (rec : MatRecord)
    (ha1 : a ∉ l1) (ha2 : a ∉ l2) (hp : p ∈ upstream a)
    (hns : p ∉ (reconcileLoop s upstream l1 wa wi prev).1)
    (hrec : s.latestMaterializationRecord p (prev a) = some rec)
    (hplanned : s.runPlannedToMaterializeAsset a rec.runId = true) :
    ((getParentUpdates s a (upstream a) (prev a)
        (reconcileLoop s upstream l1 wa wi prev).1 wi p).1 = false) ∧
      (a ∈ (reconcileLoop s upstream (l1 ++ a :: l2) wa wi prev).1 →
        ∃ m, mergeCursors prev
            (reconcile s upstream (l1 ++ a :: l2) wa wi prev tags).2 a =
          some m ∧ rec.storageId ≤ m) := by
  refine ⟨getParentUpdates_comaterialized_not_updated hns hrec hplanned, ?_⟩
  intro hsel
  have hsplit : reconcileLoop s upstream (l1 ++ a :: l2) wa wi prev =
      List.foldl (reconcileStep s upstream wa wi prev)
        (reconcileStep s upstream wa wi prev
          (reconcileLoop s upstream l1 wa wi prev) a) l2 := by
    rw [reconcileLoop, reconcileLoop, List.foldl_append, List.foldl_cons]
  rw [hsplit] at hsel
  have hstepsel : a ∈ (reconcileStep s upstream wa wi prev
      (reconcileLoop s upstream l1 wa wi prev) a).1 := by
    rcases reconcileFold_fst_sub l2 _ hsel with h3 | h3
    · exact h3
    · exact absurd h3 ha2
  have hcondtrue : assetCondition s upstream wa wi prev
      (reconcileLoop s upstream l1 wa wi prev).1 a = true := by
    by_contra h4
    rw [reconcileStep, if_neg h4] at hstepsel
    rcases reconcileFold_fst_sub l1 _ hstepsel with h5 | h5
    · simp at h5
    · exact absurd h5 ha1
  have hrecords : getParentUpdates s a (upstream a) (prev a)
      (reconcileLoop s upstream l1 wa wi prev).1 wi =
        parentStatus s a (prev a)
          (reconcileLoop s upstream l1 wa wi prev).1 := by
    rcases Bool.eq_false_or_eq_true
        (wi && (upstream a).any fun q =>
          !((reconcileLoop s upstream l1 wa wi prev).1.contains q) &&
            parentInProgress s q) with hc | hc
    · exfalso
      have hgpu : getParentUpdates s a (upstream a) (prev a)
          (reconcileLoop s upstream l1 wa wi prev).1 wi =
            fun _ => (false, none) := by
        rw [getParentUpdates, if_pos hc]
      have hfalse : assetCondition s upstream wa wi prev
          (reconcileLoop s upstream l1 wa wi prev).1 a = false :=
        assetCondition_of_records_false hp (fun q _ => by rw [hgpu])
      rw [hfalse] at hcondtrue
      exact absurd hcondtrue (by simp)
    · have hcneg : ¬ ((wi && (upstream a).any fun q =>
          !((reconcileLoop s upstream l1 wa wi prev).1.contains q) &&
            parentInProgress s q) = true) := by
        rw [hc]
        simp
      rw [getParentUpdates, if_neg hcneg]
  have hid0 : rec.storageId ≠ 0 := by
    have hmem := lastMatching_eq_some hrec
    have := hs.2 rec hmem.1
    omega
  have hcand : rec.storageId ∈
      assetCandidates s upstream wi prev
        (reconcileLoop s upstream l1 wa wi prev).1 a := by
    simp only [assetCandidates]
    refine List.mem_append.mpr (Or.inl ?_)
    refine List.mem_filterMap.mpr ⟨p, hp, ?_⟩
    rw [hrecords, parentStatus_comaterialized hns hrec hplanned]
    simp [truthyCursor, hid0]
  have hne : ¬ ((assetCandidates s upstream wi prev
      (reconcileLoop s upstream l1 wa wi prev).1 a).isEmpty = true) := by
    intro h4
    rw [List.isEmpty_iff] at h4
    rw [h4] at hcand
    simp at hcand
  have hstep_eq : reconcileStep s upstream wa wi prev
      (reconcileLoop s upstream l1 wa wi prev) a =
        ((reconcileLoop s upstream l1 wa wi prev).1.insert a,
          updateFun (reconcileLoop s upstream l1 wa wi prev).2 a
            (some ((assetCandidates s upstream wi prev
              (reconcileLoop s upstream l1 wa wi prev).1 a).foldl max 0))) := by
    rw [reconcileStep, if_pos hcondtrue, if_neg hne]
  have hfinal : (reconcileLoop s upstream (l1 ++ a :: l2) wa wi prev).2 a =
      some ((assetCandidates s upstream wi prev
        (reconcileLoop s upstream l1 wa wi prev).1 a).foldl max 0) := by
    rw [hsplit, reconcileFold_snd_frame l2 _ ha2, hstep_eq]
    exact updateFun_same _ _ _
  refine ⟨(assetCandidates s upstream wi prev
      (reconcileLoop s upstream l1 wa wi prev).1 a).foldl max 0, ?_, ?_⟩
  · show mergeCursors prev
        (reconcileLoop s upstream (l1 ++ a :: l2) wa wi prev).2 a =
      some ((assetCandidates s upstream wi prev
        (reconcileLoop s upstream l1 wa wi prev).1 a).foldl max 0)
    simp only [mergeCursors, hfinal]
  · exact mem_le_foldl_max hcand 0

/-- Concrete store for the C3 counterexample: parent `p` has one
materialization produced by run `r`, and run `r` also planned to materialize
child `a`. -/
def storeC3cex : FactStore :=
  ⟨[⟨["p"], 1, "r"⟩], [⟨["a"], 2, "r"⟩], []⟩

/-- Concrete upstream map for the C3 counterexample: `a`'s only parent is
`p`. -/
def upstreamC3cex : AssetKey → List AssetKey :=
  fun k => if k = ["a"] then [["p"]] else []

/-- Counterexample to C3 as stated: the premise holds (the latest
materialization of `p` above `a`'s cursor was produced by a run that planned
`a`), and under any-upstream mode the co-materialized record is `a`'s only
parent status, so `a` is not selected, no cursor is written for `a`, and the
very same event is returned again by the next tick's query — the cursor does
not "still advance" and the event is re-examined. -/
theorem comaterialization_cursor_not_always_advanced :
    (storeC3cex.latestMaterializationRecord ["p"]
        ((fun _ => (none : Option Nat)) (["a"] : AssetKey)) =
      some ⟨["p"], 1, "r"⟩) ∧
      (storeC3cex.runPlannedToMaterializeAsset ["a"] "r" = true) ∧
      (mergeCursors (fun _ => none)
        (reconcile storeC3cex upstreamC3cex [["p"], ["a"]] false false
          (fun _ => none) []).2 ["a"] = none) ∧
      (storeC3cex.latestMaterializationRecord ["p"]
          (mergeCursors (fun _ => none)
            (reconcile storeC3cex upstreamC3cex [["p"], ["a"]] false false
              (fun _ => none) []).2 ["a"]) =
        some ⟨["p"], 1, "r"⟩) := by
  refine ⟨by decide, by decide, by decide, by decide⟩

/-- Concrete store for the C3 witness: `p`'s materialization was co-planned
with `a` by run `r`, while a second parent `q` was materialized independently
by run `r2`. -/
def storeC3wit : FactStore :=
  ⟨[⟨["p"], 1, "r"⟩, ⟨["q"], 2, "r2"⟩], [⟨["a"], 3, "r"⟩], []⟩

/-- Concrete upstream map for the C3 witness: `a`'s parents are `p` and
`q`. -/
def upstreamC3wit : AssetKey → List AssetKey :=
  fun k => if k = ["a"] then [["p"], ["q"]] else []

/-- Witness for (amended) C3: with a second independently updated parent the
asset is selected, the co-materialized parent's status is not-updated, and the
merged cursor is at least the co-materialized record's storage id. -/
theorem comaterialization_excluded_and_cursor_candidate_witness :
    storeC3wit.WF ∧
      ((["a"] : AssetKey) ∉ ([] : List AssetKey)) ∧
      ((["p"] : AssetKey) ∈ upstreamC3wit ["a"]) ∧
      ((["p"] : AssetKey) ∉
        (reconcileLoop storeC3wit upstreamC3wit [] false true
          (fun _ => none)).1) ∧
      (storeC3wit.latestMaterializationRecord ["p"]
          ((fun _ => (none : Option Nat)) (["a"] : AssetKey)) =
        some ⟨["p"], 1, "r"⟩) ∧
      (storeC3wit.runPlannedToMaterializeAsset ["a"]
          (MatRecord.runId ⟨["p"], 1, "r"⟩) = true) ∧
      (((getParentUpdates storeC3wit ["a"] (upstreamC3wit ["a"])
          ((fun _ => (none : Option Nat)) (["a"] : AssetKey))
          (reconcileLoop storeC3wit upstreamC3wit [] false true
            (fun _ => none)).1 true ["p"]).1 = false) ∧
        ((["a"] : AssetKey) ∈
            (reconcileLoop storeC3wit upstreamC3wit ([] ++ ["a"] :: [])
              false true (fun _ => none)).1 →
          ∃ m, mergeCursors (fun _ => none)
              (reconcile storeC3wit upstreamC3wit ([] ++ ["a"] :: [])
                false true (fun _ => none) []).2 ["a"] =
            some m ∧ (MatRecord.storageId ⟨["p"], 1, "r"⟩) ≤ m)) :=
  ⟨⟨by decide, by decide⟩, by decide, by decide, by decide, by decide,
    by decide,
    comaterialization_excluded_and_cursor_candidate storeC3wit
      ⟨by decide, by decide⟩ upstreamC3wit false true (fun _ => none) []
      [] [] ["a"] ["p"] ⟨["p"], 1, "r"⟩ (by decide) (by decide) (by decide)
      (by decide) (by decide) (by decide)⟩

/-- Concrete store for the C7 propagation example: completed materializations
of `a`, `b` and `c` (storage ids 1, 2, 3) produced and planned by run `r1`,
which is not in progress. -/
def storeC7 : FactStore :=
  ⟨[⟨["a"], 1, "r1"⟩, ⟨["b"], 2, "r1"⟩, ⟨["c"], 3, "r1"⟩],
    [⟨["a"], 1, "r1"⟩, ⟨["b"], 2, "r1"⟩, ⟨["c"], 3, "r1"⟩], []⟩

/-- Concrete upstream map for the C7 propagation example: `d` depends on `a`
and `b`, `e` on `b` and `c`, `f` on `d` and `e`. -/
def upstreamC7 : AssetKey → List AssetKey :=
  fun k =>
    if k = ["d"] then [["a"], ["b"]]
    else if k = ["e"] then [["b"], ["c"]]
    else if k = ["f"] then [["d"], ["e"]] else []

/-- C7: on the graph where `d` depends on `a` and `b`, `e` on `b` and `c` and
`f` on `d` and `e`, with monitored assets `d`, `e`, `f` in topological order,
all-upstream mode, an empty previous cursor, completed (not in-progress)
materializations of `a`, `b` and `c` and none previously consumed, the first
tick returns exactly one RunRequest whose asset set is exactly
`{d, e, f}`. -/
theorem propagation_all_upstream_single_request :
    ((reconcile storeC7 upstreamC7 [["d"], ["e"], ["f"]] true true
        (fun _ => none) []).1.map fun rr => rr.assetSelection.toFinset) =
      [({["d"], ["e"], ["f"]} : Finset AssetKey)] := by
  decide

theorem mem_upstreamResolve {parentsOf : AssetKey → List AssetKey}
    {selectionResolved : List AssetKey} {a p : AssetKey}
    (h : p ∈ upstreamResolve parentsOf selectionResolved a) :
    p ∈ selectionResolved := by
  rw [upstreamResolve] at h
  have h2 := List.of_mem_filter h
  exact List.mem_of_elem_eq_true h2

/-- C4: every parent appearing in a parent set of the upstream map built by
`_get_upstream_mapping` is itself a member of the monitored selection, and is
never the asset itself; parents outside the selection are structurally absent
from the map. -/
theorem upstream_mapping_parents_monitored
    (parentsOf : AssetKey → List AssetKey)
    (selectionResolved : List AssetKey) (a p : AssetKey)
    (h : p ∈ getUpstreamMapping parentsOf selectionResolved a) :
    p ∈ selectionResolved ∧ p ≠ a := by
  rw [getUpstreamMapping] at h
  have h1 := List.mem_of_mem_filter h
  have h2 := List.of_mem_filter h
  refine ⟨mem_upstreamResolve h1, ?_⟩
  intro he
  rw [he] at h2
  simp at h2

/-- Witness for C4 at a concrete graph: the one parent of `b` in the map is in
the selection and differs from `b`. -/
theorem upstream_mapping_parents_monitored_witness :
    ((["a"] : AssetKey) ∈
        getUpstreamMapping
          (fun k => if k = ["b"] then [["a"], ["x"]] else [])
          [["a"], ["b"]] ["b"]) ∧
      ((["a"] : AssetKey) ∈ [(["a"] : AssetKey), ["b"]] ∧
        (["a"] : AssetKey) ≠ ["b"]) :=
  ⟨by decide,
    upstream_mapping_parents_monitored
      (fun k => if k = ["b"] then [["a"], ["x"]] else []) [["a"], ["b"]]
      ["b"] ["a"] (by decide)⟩

/-- The loop of `MinimumFreshnessPolicy.minutes_late`: walk the upstream
materialization times, returning `none` as soon as a missing time is seen and
otherwise accumulating the maximum of `minimum_time - upstream_time` over
upstream times strictly before `minimum_time`, starting from `0.0`.  Times and
minute counts (`total_seconds() / 60`) are embedded as rationals measured in
minutes. -/
def minutesLateLoop (minimumTime : ℚ) : ℚ → List (Option ℚ) → Option ℚ
  | acc, [] => some acc
  | _, none :: _ => none
  | acc, some t :: rest =>
    minutesLateLoop minimumTime
      (if t < minimumTime then max acc (minimumTime - t) else acc) rest

/-- `MinimumFreshnessPolicy.minutes_late`: `minimum_time` is
`evaluation_time - duration(minutes=minimum_freshness_minutes)`; the loop runs
over the values of the upstream materialization-time mapping. -/
def minimumFreshnessMinutesLate (minimumFreshnessMinutes evaluationTime : ℚ)
    (upstreamMaterializationTimes : List (AssetKey × Option ℚ)) : Option ℚ :=
  minutesLateLoop (evaluationTime - minimumFreshnessMinutes) 0
    (upstreamMaterializationTimes.map Prod.snd)

theorem foldl_max_init_rat (l : List ℚ) :
    ∀ a b : ℚ, l.foldl max (max a b) = max a (l.foldl max b) := by
  induction l with
  | nil => intro a b; rfl
  | cons u rest ih =>
    intro a b
    rw [List.foldl_cons, List.foldl_cons, max_assoc, ih]

theorem rat_le_foldl_max (l : List ℚ) : ∀ a : ℚ, a ≤ l.foldl max a := by
  induction l with
  | nil => intro a; exact le_refl a
  | cons u rest ih =>
    intro a
    exact le_trans (le_max_left a u) (ih (max a u))

theorem minutesLateLoop_eq (m : ℚ) :
    ∀ (l : List (Option ℚ)) (acc : ℚ), 0 ≤ acc →
      minutesLateLoop m acc l =
        if l.any Option.isNone then none
        else
          some (max acc
            (((l.filterMap id).map fun u => if u < m then m - u else 0).foldl
              max 0)) := by
  intro l
  induction l with
  | nil =>
    intro acc hacc
    have h0 : minutesLateLoop m acc [] = some acc := rfl
    rw [h0, List.any_nil, if_neg (show ¬(false = true) by simp),
      List.filterMap_nil, List.map_nil, List.foldl_nil, max_eq_left hacc]
  | cons o rest ih =>
    intro acc hacc
    rcases o with _ | t
    · simp [minutesLateLoop]
    · have hstep : minutesLateLoop m acc (some t :: rest) =
          minutesLateLoop m (if t < m then max acc (m - t) else acc) rest :=
        rfl
      have hacc2 : 0 ≤ (if t < m then max acc (m - t) else acc) := by
        split
        · exact le_trans hacc (le_max_left _ _)
        · exact hacc
      rw [hstep, ih _ hacc2]
      have hany : (some t :: rest).any Option.isNone =
          rest.any Option.isNone := by simp
      have hfm : (some t :: rest).filterMap id = t :: rest.filterMap id := by
        simp
      rw [hany, hfm, List.map_cons, List.foldl_cons]
      split
      · rfl
      · congr 1
        rw [max_comm (0 : ℚ) (if t < m then m - t else 0),
          foldl_max_init_rat]
        by_cases ht : t < m
        · rw [if_pos ht, if_pos ht, max_assoc]
        · rw [if_neg ht, if_neg ht, max_eq_right (rat_le_foldl_max _ 0)]

/-- C8: `MinimumFreshnessPolicy.minutes_late` returns `none` exactly when some
upstream materialization time is missing, and otherwise the maximum over
upstreams of `(evaluationTime - window) - upstreamTime` for upstream times
strictly before `evaluationTime - window` and zero otherwise — in particular
`0.0`, not `none`, when no upstream is late, including for an empty mapping.
Times are minutes embedded as rationals. -/
theorem minimum_freshness_minutes_late_spec (w evalT : ℚ)
    (times : List (AssetKey × Option ℚ)) :
    minimumFreshnessMinutesLate w evalT times =
      if (times.map Prod.snd).any Option.isNone then none
      else
        some ((((times.map Prod.snd).filterMap id).map fun u =>
          if u < evalT - w then (evalT - w) - u else 0).foldl max 0) := by
  rw [minimumFreshnessMinutesLate,
    minutesLateLoop_eq (evalT - w) (times.map Prod.snd) 0 (le_refl 0)]
  split
  · rfl
  · rw [max_eq_right (rat_le_foldl_max _ 0)]
